import Mathlib

/-!
Shallow embedding of the proof-text normalizer (`src/utils/_format/format.py`)
and the outcome-aggregation utility (`src/scripts/make_proof_outcomes.py`).

Python strings are modelled as Lean `String` (with most computation on the
underlying `List Char`).  Python's `Result = Ok | Err` union is modelled by
`PyResult`, with the `Exception` payload reduced to its message string.
-/

/-- Whitespace characters recognised by Python's `str.strip()` /
`str.rstrip()` (restricted to the ASCII range, which is all the
repository's inputs use). -/
def pyIsSpace (c : Char) : Bool :=
  c = ' ' || c = '\t' || c = '\n' || c = '\x0d' || c = '\x0b' || c = '\x0c'

/-- Line-boundary characters recognised by Python's `str.splitlines()`
(`\r\n` is additionally treated as a single boundary by `splitLinesList`). -/
def isLineBreak (c : Char) : Bool :=
  c = '\n' || c = '\x0d' || c = '\x0b' || c = '\x0c' ||
  c = '\x1c' || c = '\x1d' || c = '\x1e' || c = '\u0085' ||
  c = '\u2028' || c = '\u2029'

/-- `str.strip()` on a character list. -/
def pyStripList (l : List Char) : List Char :=
  ((l.dropWhile pyIsSpace).reverse.dropWhile pyIsSpace).reverse

/-- `str.rstrip()` on a character list. -/
def pyRstripList (l : List Char) : List Char :=
  (l.reverse.dropWhile pyIsSpace).reverse

/-- `str.strip()` on a string. -/
def pyStrip (s : String) : String :=
  String.mk (pyStripList s.data)

/-- Helper for `splitLinesList`: accumulates the current line (reversed). -/
def splitLinesGo : List Char → List Char → List (List Char)
  | [], acc => if acc.isEmpty then [] else [acc.reverse]
  | '\x0d' :: '\n' :: rest, acc => acc.reverse :: splitLinesGo rest []
  | c :: rest, acc =>
    if isLineBreak c then acc.reverse :: splitLinesGo rest []
    else splitLinesGo rest (c :: acc)

/-- Python `str.splitlines()` on a character list: each line terminator ends a
line, a trailing segment without terminator counts only when non-empty. -/
def splitLinesList (l : List Char) : List (List Char) :=
  splitLinesGo l []

/-- Python `str.split("\n")` on a character list (always non-empty). -/
def splitOnNlList : List Char → List (List Char)
  | [] => [[]]
  | '\n' :: rest => [] :: splitOnNlList rest
  | c :: rest =>
    match splitOnNlList rest with
    | [] => [[c]]
    | l :: ls => (c :: l) :: ls

/-- Python `"\n".join(...)` on character lists. -/
def joinNlList : List (List Char) → List Char
  | [] => []
  | [l] => l
  | l :: ls => l ++ '\n' :: joinNlList ls

/-- The three-backtick fence marker. -/
def fenceChars : List Char := "```".data

/-- `strip_trailing_fence` from `format.py`: drop trailing blank lines, and if
the last non-blank line (stripped) starts with three backticks, return the
lines before it joined by newlines and right-stripped; otherwise return the
text unchanged. -/
def strip_trailing_fence (text : String) : String :=
  let lines := splitLinesList text.data
  let rev := lines.reverse.dropWhile (fun l => pyStripList l = [])
  match rev with
  | [] => text
  | l :: rest =>
    if fenceChars.isPrefixOf (pyStripList l) then
      String.mk (pyRstripList (joinNlList rest.reverse))
    else text

/-- Whether the last non-blank line of `text` (stripped) starts with a
three-backtick fence, i.e. whether `strip_trailing_fence` would remove
anything. -/
def ends_with_fence_line (text : String) : Bool :=
  match (splitLinesList text.data).reverse.dropWhile (fun l => pyStripList l = []) with
  | [] => false
  | l :: _ => fenceChars.isPrefixOf (pyStripList l)

/-- Case-insensitive literal-prefix match: `pat` must be lowercase; on success
returns the remainder of `l`. -/
def ciPrefix : List Char → List Char → Option (List Char)
  | [], l => some l
  | _ :: _, [] => none
  | p :: ps, c :: cs => if c.toLower = p then ciPrefix ps cs else none

/-- Drop leading spaces and tabs (the regex character class `[ \t]*`). -/
def dropSpTab (l : List Char) : List Char :=
  l.dropWhile (fun c => c = ' ' || c = '\t')

/-- Remainder of an opening-fence line after the language tag: optional
spaces/tabs, an optional carriage return, then the end of the line
(the regex fragment `[ \t]*\r?\n` with the newline being the line split). -/
def openTagTail (l : List Char) : Bool :=
  match dropSpTab l with
  | [] => true
  | ['\x0d'] => true
  | _ => false

/-- Whether a line is an opening fence of the block regex in
`extract_last_lean4_block`: `^[ \t]*`, three backticks, the tag
`lean4` or `lean` (case-insensitive, longest alternative first),
then `[ \t]*\r?` to the end of the line. -/
def openLine (l : List Char) : Bool :=
  let l1 := dropSpTab l
  if fenceChars.isPrefixOf l1 then
    let l2 := l1.drop 3
    (match ciPrefix "lean4".data l2 with
     | some l3 => openTagTail l3
     | none => false) ||
    (match ciPrefix "lean".data l2 with
     | some l3 => openTagTail l3
     | none => false)
  else false

/-- Whether a line is a closing fence of the block regex:
`^[ \t]*`, three backticks, `[ \t]*$`. -/
def closeLine (l : List Char) : Bool :=
  let l1 := dropSpTab l
  if fenceChars.isPrefixOf l1 then (dropSpTab (l1.drop 3)).isEmpty
  else false

/-- Reassemble a captured block body from its lines: the regex group captures
every body line together with its terminating newline. -/
def bodyOf (bodyLines : List (List Char)) : List Char :=
  (bodyLines.map (fun l => l ++ ['\n'])).flatten

/-- One left-to-right scan over the lines of the text, replicating
`re.findall` for the fenced-block regex: outside a block (`acc = none`) an
opening-fence line enters a block; inside, the first closing-fence line emits
the captured body and leaves the block.  An opening fence with no later
closing fence matches nothing, which agrees with leftmost matching because a
closing fence after any later opening fence would also close the first. -/
def scanBlocks : List (List Char) → Option (List (List Char)) → List (List Char)
  | [], _ => []
  | l :: rest, none =>
    if openLine l then scanBlocks rest (some []) else scanBlocks rest none
  | l :: rest, some acc =>
    if closeLine l then bodyOf acc.reverse :: scanBlocks rest none
    else scanBlocks rest (some (l :: acc))

/-- The bodies of all fenced `lean`/`lean4` blocks of `text`, in order
(`pattern.findall(text)` in `extract_last_lean4_block`). -/
def leanBlockBodies (text : String) : List (List Char) :=
  scanBlocks (splitOnNlList text.data) none

/-- `extract_last_lean4_block` from `format.py`:
`matches[-1].strip() if matches else None`. -/
def extract_last_lean4_block (text : String) : Option String :=
  match (leanBlockBodies text).getLast? with
  | none => none
  | some b => some (String.mk (pyStripList b))

/-- `remove_leading_whitespace` from `format.py`: with one line or fewer the
text is unchanged; otherwise the count (inferred from the second line's
leading spaces when absent) is dropped from the start of every line after
the first. -/
def remove_leading_whitespace (s : String) (count : Option Nat) : String :=
  match splitOnNlList s.data, count with
  | [], _ => s
  | [_], _ => s
  | l0 :: l1 :: rest, c? =>
    let c := c?.getD (l1.length - (l1.dropWhile (fun ch => ch = ' ')).length)
    String.mk (joinNlList (l0 :: (l1 :: rest).map (fun l => l.drop c)))

/-- `remove_trailing_end` from `format.py`: pop the last line when its
stripped content is exactly `end`, then re-join with newlines. -/
def remove_trailing_end (s : String) : String :=
  let lines := splitOnNlList s.data
  let lines2 :=
    if pyStripList (lines.getLastD []) = "end".data then lines.dropLast
    else lines
  String.mk (joinNlList lines2)

/-- `format_proof` from `format.py`: fence stripper, then trailing-`end`
stripper, then leading-whitespace normalizer. -/
def format_proof (s : String) (count : Option Nat) : String :=
  remove_leading_whitespace (remove_trailing_end (strip_trailing_fence s)) count

/-- The `Result = Ok | Err` union of `format.py`, with the `Exception`
payload reduced to its message. -/
inductive PyResult (α : Type) where
  | ok (v : α)
  | err (e : String)
deriving DecidableEq

/-- `safe_format_proof` from `format.py`: the wrapped `format_proof` is built
from total string operations, so the `except` branch is unreachable and the
embedding always returns `ok`. -/
def safe_format_proof (s : String) (count : Option Nat) : PyResult String :=
  .ok (format_proof s count)

/-- Word-constituent characters of the regex `\b` boundary (`\w`, restricted
to the ASCII range used by the repository's inputs). -/
def wordChar (c : Char) : Bool :=
  c.isAlphanum || c = '_'

/-- Helper for `findWord`: scans with the previous character (for the left
word boundary) and the current index. -/
def findWordGo (w : List Char) (prev : Option Char) : List Char → Nat → Option Nat
  | [], _ => none
  | c :: rest, i =>
    if (match prev with
        | none => true
        | some p => !wordChar p) &&
       w.isPrefixOf (c :: rest) &&
       (match (c :: rest).drop w.length with
        | [] => true
        | nxt :: _ => !wordChar nxt) then
      some i
    else findWordGo w (some c) rest (i + 1)

/-- `re.search(r"\bWORD\b", s)`: index of the first occurrence of `w` in `s`
delimited by word boundaries on both sides, if any. -/
def findWord (w : List Char) (s : List Char) : Option Nat :=
  findWordGo w none s 0

/-- `extract_proof_from_full` from `format.py`: locate the first standalone
`theorem`, then the first standalone `by` after it; the proof body starts two
characters after the start of that `by`, with leading newlines and spaces
stripped; empty bodies are an error. -/
def extract_proof_from_full (s : String) : PyResult String :=
  match findWord "theorem".data s.data with
  | none => .err "no theorem keyword found"
  | some i =>
    match findWord "by".data (s.data.drop (i + 7)) with
    | none => .err "no `by` found after theorem"
    | some j =>
      let proof :=
        String.mk ((s.data.drop (i + 7 + j + 2)).dropWhile (fun c => c = '\n' || c = ' '))
      if pyStrip proof = "" then .err "empty proof after `by`"
      else .ok proof

/-- The intermediate working text `pf` computed by `apply_bulk_strategies`:
the last fenced Lean block when one exists (further reduced to the proof body
after `by` when that extraction succeeds), otherwise the raw input. -/
def working_text (s : String) : String :=
  match extract_last_lean4_block s with
  | none => s
  | some block =>
    match extract_proof_from_full block with
    | .ok v => v
    | .err _ => block

/-- The `attempts` list built by `apply_bulk_strategies`: the working text as
an immediate success, then the composed formatter with inferred indent and
with explicit indents 2 and 4. -/
def bulk_attempts (s : String) : List (PyResult String) :=
  [.ok (working_text s)] ++ [safe_format_proof (working_text s) none] ++
    [safe_format_proof (working_text s) (some 2), safe_format_proof (working_text s) (some 4)]

/-- The collection loop of `apply_bulk_strategies`: keep the payloads of the
successful results, drop (log-and-skip) the failures. -/
def collectOks : List (PyResult String) → List String
  | [] => []
  | .ok v :: rs => v :: collectOks rs
  | .err _ :: rs => collectOks rs

/-- `apply_bulk_strategies` from `format.py`. -/
def apply_bulk_strategies (s : String) : List String :=
  collectOks (bulk_attempts s)

/-- `get_proof_variants` from `format.py`: the raw input followed by the
successful bulk-strategy results. -/
def get_proof_variants (s : String) : List String :=
  [s] ++ apply_bulk_strategies s

/-!
Embedding of `src/scripts/make_proof_outcomes.py`.

A directory tree is modelled by `FsEntry`; `os.listdir` order is the order of
the `children` list.  Python's `dict` (insertion-ordered, with the unique
directory names of a real filesystem as keys) is modelled by an association
list built in insertion order.
-/

/-- A filesystem entry: a plain file or a directory with its listing. -/
inductive FsEntry where
  | file (name : String)
  | dir (name : String) (children : List FsEntry)

/-- The name of an entry. -/
def FsEntry.name : FsEntry → String
  | .file n => n
  | .dir n _ => n

/-- `os.path.isdir` on an entry. -/
def FsEntry.isDir : FsEntry → Bool
  | .dir _ _ => true
  | .file _ => false

/-- `os.listdir` of an entry (empty for plain files). -/
def FsEntry.children : FsEntry → List FsEntry
  | .dir _ cs => cs
  | .file _ => []

/-- Stable insertion into a list sorted by `le` (new element goes before the
first element it compares `le` to, hence after any equal earlier ones were
already placed — matching Python's stable `sorted`). -/
def insertLe (le : α → α → Bool) (x : α) : List α → List α
  | [] => [x]
  | y :: ys => if le x y then x :: y :: ys else y :: insertLe le x ys

/-- Stable sort by the boolean relation `le` (Python's `sorted`). -/
def sortByLe (le : α → α → Bool) : List α → List α
  | [] => []
  | x :: xs => insertLe le x (sortByLe le xs)

/-- Lexicographic code-point comparison of character lists (Python string
`<=`). -/
def lexLe : List Char → List Char → Bool
  | [], _ => true
  | _ :: _, [] => false
  | a :: as, b :: bs =>
    if a.toNat < b.toNat then true
    else if b.toNat < a.toNat then false
    else lexLe as bs

/-- ASCII decimal digit test. -/
def isDigitChar (c : Char) : Bool :=
  48 ≤ c.toNat && c.toNat ≤ 57

/-- Python `str.isdigit()` (restricted to ASCII digits). -/
def pyIsDigitStr (s : String) : Bool :=
  !s.data.isEmpty && s.data.all isDigitChar

/-- Numeric value of a list of ASCII digits. -/
def digitsVal (ds : List Char) : Nat :=
  ds.foldl (fun a c => a * 10 + (c.toNat - 48)) 0

/-- Parse a non-empty all-digit character list. -/
def parseDigits (ds : List Char) : Option Nat :=
  if !ds.isEmpty && ds.all isDigitChar then some (digitsVal ds) else none

/-- Python `int(str)`: surrounding whitespace stripped, an optional sign,
then decimal digits; anything else raises `ValueError`, modelled as `none`. -/
def parsePyInt (s : List Char) : Option Int :=
  match pyStripList s with
  | [] => none
  | c :: cs =>
    if c = '+' then (parseDigits cs).map Int.ofNat
    else if c = '-' then (parseDigits cs).map (fun n => -(n : Int))
    else (parseDigits (c :: cs)).map Int.ofNat

/-- `os.path.splitext(name)[0]`: the part before the last dot, except that a
basename whose characters before the last dot are all dots is not split. -/
def splitextStem (s : List Char) : List Char :=
  match s.reverse.dropWhile (fun c => c ≠ '.') with
  | [] => s
  | _ :: beforeRev =>
    if beforeRev.any (fun c => c ≠ '.') then beforeRev.reverse else s

/-- `MAX_ATTEMPTS` from `make_proof_outcomes.py`. -/
def MAX_ATTEMPTS : Nat := 24

/-- The body of the attempt-flag loop of `build_outcomes`: an entry whose
lowercased name ends in `.txt` and whose stem parses as an integer in
`[1, 24]` sets slot `num - 1` to `1`; every other entry is skipped. -/
def attempt_step (acc : List Nat) (entry : String) : List Nat :=
  if (".txt".data).isSuffixOf (entry.data.map Char.toLower) then
    match parsePyInt (splitextStem entry.data) with
    | some num =>
      if 1 ≤ num && num ≤ (MAX_ATTEMPTS : Int) then
        acc.set (num - 1).toNat 1
      else acc
    | none => acc
  else acc

/-- The attempt-flag loop of `build_outcomes`, starting from `[0] * 24`. -/
def attempt_flags (entries : List String) : List Nat :=
  entries.foldl attempt_step (List.replicate MAX_ATTEMPTS 0)

/-- Sort key `int(name)` used for problem directories (total on the digit
names the filter lets through; `0` is a dummy for unparsable names). -/
def intKeyLe (a b : FsEntry) : Bool :=
  ((parsePyInt a.name.data).getD 0) ≤ ((parsePyInt b.name.data).getD 0)

/-- `build_outcomes` from `make_proof_outcomes.py`: digit-named directories
of the root, sorted numerically; inside each, directories sorted by name;
for each model directory the 24 attempt flags from its listing. -/
def build_outcomes (root : List FsEntry) : List (String × List (String × List Nat)) :=
  let prob_dirs := root.filter (fun e => e.isDir && pyIsDigitStr e.name)
  (sortByLe intKeyLe prob_dirs).map (fun p =>
    (p.name,
      (sortByLe (fun a b => lexLe a.name.data b.name.data) p.children).filterMap
        (fun m =>
          if m.isDir then
            some (m.name, attempt_flags (m.children.map FsEntry.name))
          else none)))

/-- Canonical decimal digits of `n` given enough fuel (`n < fuel`). -/
def natDigits : Nat → Nat → List Char
  | 0, _ => []
  | fuel + 1, n =>
    if n < 10 then [Char.ofNat (48 + n)]
    else natDigits fuel (n / 10) ++ [Char.ofNat (48 + n % 10)]

/-- The canonical decimal string of a natural number (`"0"`, `"1"`, ...,
no leading zeros). -/
def decimalStr (n : Nat) : String :=
  String.mk (natDigits (n + 1) n)

/-- Well-formedness of the aggregation input tree
`root/<problem-index>/<model-name>/<attempt-number>.txt`: root entries are
directories with canonical-number names, their children are directories, and
the files inside carry canonical names `<k>.txt`. -/
def wfTree (root : List FsEntry) : Prop :=
  ∀ p ∈ root, p.isDir ∧ pyIsDigitStr p.name ∧
    ∀ m ∈ p.children, m.isDir ∧
      ∀ f ∈ m.children, ∃ k : Nat, f = .file (decimalStr k ++ ".txt")

/-! ### Basic lemmas about the line splitters -/

theorem splitOnNl_ne_nil (cs : List Char) : splitOnNlList cs ≠ [] := by
  induction cs with
  | nil => simp [splitOnNlList]
  | cons c rest ih =>
    by_cases h : c = '\n'
    · subst h; simp [splitOnNlList]
    · rcases e : splitOnNlList rest with _ | ⟨l, ls⟩
      · exact absurd e ih
      · simp [splitOnNlList, h, e]

theorem joinNl_splitOnNl (cs : List Char) : joinNlList (splitOnNlList cs) = cs := by
  induction cs with
  | nil => rfl
  | cons c rest ih =>
    rcases e : splitOnNlList rest with _ | ⟨l, ls⟩
    · exact absurd e (splitOnNl_ne_nil rest)
    · rw [e] at ih
      by_cases h : c = '\n'
      · subst h
        simp only [splitOnNlList, e, joinNlList]
        cases ls <;> simp_all [joinNlList]
      · simp only [splitOnNlList, h, e, if_false]
        cases ls <;> simp_all [joinNlList]

theorem string_mk_data (s : String) : String.mk s.data = s := rfl

/-! ### The collection loop drops failures -/

/-- The payload of a successful result. -/
def resOk : PyResult String → Option String
  | .ok v => some v
  | .err _ => none

theorem collectOks_eq_filterMap (l : List (PyResult String)) :
    collectOks l = l.filterMap resOk := by
  induction l with
  | nil => rfl
  | cons r rs ih => cases r <;> simp [collectOks, resOk, ih]

/-- C1: for every input string the variant assembler returns the raw input
first, followed by exactly the successful formatting attempts in order:
the working text unchanged, then the composed formatter with inferred
indent, explicit indent 2, and explicit indent 4 (all of which succeed). -/
theorem get_proof_variants_spec (s : String) :
    get_proof_variants s =
      [s, working_text s,
        format_proof (working_text s) none,
        format_proof (working_text s) (some 2),
        format_proof (working_text s) (some 4)] := by
  rfl

/-- C2: the variant assembler and the components beneath it are total
functions into tagged-result values: the variant list is the raw input
followed by the collection-loop output, and the collection loop keeps
exactly the payloads of successful results, dropping every tagged failure
instead of propagating it. -/
theorem no_raise_failures_dropped :
    (∀ s : String, get_proof_variants s = s :: collectOks (bulk_attempts s)) ∧
      (∀ l : List (PyResult String), collectOks l = l.filterMap resOk) :=
  ⟨fun _ => rfl, collectOks_eq_filterMap⟩

/-- C10: every formatting attempt succeeds — the failure branch of the safe
composed formatter is unreachable — so the variant list always has exactly
five elements. -/
theorem all_attempts_succeed :
    (∀ (s : String) (count : Option Nat),
        safe_format_proof s count = .ok (format_proof s count)) ∧
      (∀ s : String, (get_proof_variants s).length = 5) :=
  ⟨fun _ _ => rfl, fun _ => rfl⟩

/-- C5: on a response whose lean4 fenced block holds a `theorem ... by` with
an indented `trivial` line and a trailing `end` line, the first variant is
the raw input verbatim and a later variant is exactly `trivial`. -/
theorem variant_pipeline_example :
    (get_proof_variants
        "Some reasoning.\n```lean4\ntheorem foo : True by\n  trivial\nend\n```").head? =
      some "Some reasoning.\n```lean4\ntheorem foo : True by\n  trivial\nend\n```" ∧
      "trivial" ∈
        (get_proof_variants
          "Some reasoning.\n```lean4\ntheorem foo : True by\n  trivial\nend\n```").drop 1 := by
  constructor
  · rfl
  · decide

/-- C8: the trailing-`end` stripper drops exactly the last line when that
line's stripped content is the word `end`, and returns the text unchanged in
every other case. -/
theorem remove_trailing_end_spec (s : String) :
    (pyStripList ((splitOnNlList s.data).getLastD []) = "end".data →
        remove_trailing_end s =
          String.mk (joinNlList (splitOnNlList s.data).dropLast)) ∧
      (pyStripList ((splitOnNlList s.data).getLastD []) ≠ "end".data →
        remove_trailing_end s = s) := by
  constructor
  · intro h
    simp only [remove_trailing_end, h, if_true]
  · intro h
    simp only [remove_trailing_end, h, if_false]
    rw [joinNl_splitOnNl]

/-- C8 witness: on `"trivial\n end "` the last line strips to `end`, and the
stripper removes exactly that line; on `"a\nendgame"` it does not and the
text is unchanged. -/
theorem remove_trailing_end_spec_witness :
    remove_trailing_end "trivial\n end " = "trivial" ∧
      remove_trailing_end "a\nendgame" = "a\nendgame" := by
  constructor
  · exact (remove_trailing_end_spec "trivial\n end ").1 (by decide)
  · exact (remove_trailing_end_spec "a\nendgame").2 (by decide)

/-- A text whose last non-blank line is not a fence line is returned
unchanged by the fence stripper. -/
theorem strip_trailing_fence_of_no_fence (t : String)
    (h : ends_with_fence_line t = false) : strip_trailing_fence t = t := by
  unfold strip_trailing_fence
  unfold ends_with_fence_line at h
  rcases e : (splitLinesList t.data).reverse.dropWhile (fun l => decide (pyStripList l = [])) with _ | ⟨l, rest⟩
  · simp only [e]
  · simp only [e] at h ⊢
    simp [h]

/-- C7 counterexample: the fence stripper is not idempotent.  On
`"a\n```\n```"` one application leaves `"a\n```"` (whose last line is again a
fence line), and a second application strips further to `"a"`. -/
theorem strip_trailing_fence_not_idempotent :
    strip_trailing_fence (strip_trailing_fence "a\n```\n```") ≠
      strip_trailing_fence "a\n```\n```" := by
  decide

/-- C7 (amended): the fence stripper is idempotent on every input whose
result after one application does not itself end in a fence line, i.e.
whenever one application does not expose another trailing fence. -/
theorem strip_trailing_fence_idempotent_of_no_fence (s : String)
    (h : ends_with_fence_line (strip_trailing_fence s) = false) :
    strip_trailing_fence (strip_trailing_fence s) = strip_trailing_fence s :=
  strip_trailing_fence_of_no_fence _ h

/-- C7 witness: one application on `"foo\n```"` leaves `"foo"`, which ends
in no fence line, so the second application is the identity there. -/
theorem strip_trailing_fence_idempotent_witness :
    ends_with_fence_line (strip_trailing_fence "foo\n```") = false ∧
      strip_trailing_fence (strip_trailing_fence "foo\n```") =
        strip_trailing_fence "foo\n```" :=
  ⟨by decide, strip_trailing_fence_idempotent_of_no_fence "foo\n```" (by decide)⟩

/-- C3: the block extractor returns the stripped body of the last matching
fenced lean/lean4 block, an absent result when no block matches; with two
lean4 blocks carrying bodies `A` and `B` it returns `B`. -/
theorem extract_last_block_spec :
    (∀ (t : String) (pre : List (List Char)) (lst : List Char),
        leanBlockBodies t = pre ++ [lst] →
        extract_last_lean4_block t = some (String.mk (pyStripList lst))) ∧
      (∀ t : String, leanBlockBodies t = [] → extract_last_lean4_block t = none) ∧
      extract_last_lean4_block
          "Draft:\n```lean4\nA\n```\nFinal:\n```lean4\nB\n```" = some "B" ∧
      extract_last_lean4_block "no fenced blocks here" = none := by
  refine ⟨?_, ?_, ?_, ?_⟩
  · intro t pre lst h
    unfold extract_last_lean4_block
    rw [h, List.getLast?_concat]
  · intro t h
    unfold extract_last_lean4_block
    rw [h]
    rfl
  · decide
  · decide

/-- C3 witness: the two-block text matches the general last-body rule with an
explicit decomposition of the match list. -/
theorem extract_last_block_spec_witness :
    extract_last_lean4_block
        "Draft:\n```lean4\nA\n```\nFinal:\n```lean4\nB\n```" =
      some (String.mk (pyStripList "B\n".data)) :=
  extract_last_block_spec.1
    "Draft:\n```lean4\nA\n```\nFinal:\n```lean4\nB\n```"
    ["A\n".data] "B\n".data (by decide)

/-- C4: the theorem-body extractor succeeds with the text starting two
characters after the first standalone `by` following the first standalone
`theorem` (leading newlines and spaces stripped), fails exactly when there is
no such `theorem`, no such `by` after it, or the body strips to nothing;
word boundaries keep `by` inside `baby` from matching. -/
theorem extract_proof_spec :
    extract_proof_from_full "theorem foo : True by\n  trivial" = .ok "trivial" ∧
      extract_proof_from_full "no keywords here" = .err "no theorem keyword found" ∧
      findWord "by".data "baby".data = none ∧
      (∀ (s : String) (i j : Nat),
        findWord "theorem".data s.data = some i →
        findWord "by".data (s.data.drop (i + 7)) = some j →
        pyStrip (String.mk ((s.data.drop (i + 7 + j + 2)).dropWhile
            (fun c => c = '\n' || c = ' '))) ≠ "" →
        extract_proof_from_full s =
          .ok (String.mk ((s.data.drop (i + 7 + j + 2)).dropWhile
            (fun c => c = '\n' || c = ' ')))) ∧
      (∀ s : String,
        (∃ e, extract_proof_from_full s = .err e) ↔
          (findWord "theorem".data s.data = none ∨
            (∃ i, findWord "theorem".data s.data = some i ∧
              findWord "by".data (s.data.drop (i + 7)) = none) ∨
            (∃ i j, findWord "theorem".data s.data = some i ∧
              findWord "by".data (s.data.drop (i + 7)) = some j ∧
              pyStrip (String.mk ((s.data.drop (i + 7 + j + 2)).dropWhile
                (fun c => c = '\n' || c = ' '))) = ""))) := by
  refine ⟨by decide, by decide, by decide, ?_, ?_⟩
  · intro s i j h1 h2 h3
    simp only [extract_proof_from_full, h1, h2, h3, if_false]
  · intro s
    rcases e1 : findWord "theorem".data s.data with _ | i
    · simp [extract_proof_from_full, e1]
    · rcases e2 : findWord "by".data (s.data.drop (i + 7)) with _ | j
      · simp [extract_proof_from_full, e1, e2]
      · by_cases h3 : pyStrip (String.mk ((s.data.drop (i + 7 + j + 2)).dropWhile
            (fun c => c = '\n' || c = ' '))) = ""
        · simp [extract_proof_from_full, e1, e2, h3]
        · simp [extract_proof_from_full, e1, e2, h3]

/-- C4 witness: the general success rule instantiated on the example from
the claim, with the keyword positions made explicit. -/
theorem extract_proof_spec_witness :
    extract_proof_from_full "theorem foo : True by\n  trivial" =
      .ok (String.mk ((("theorem foo : True by\n  trivial").data.drop (0 + 7 + 12 + 2)).dropWhile
        (fun c => c = '\n' || c = ' '))) :=
  extract_proof_spec.2.2.2.1 "theorem foo : True by\n  trivial" 0 12
    (by decide) (by decide) (by decide)

theorem length_sub_dropWhile (p : Char → Bool) (l : List Char) :
    l.length - (l.dropWhile p).length = (l.takeWhile p).length := by
  have h := congrArg List.length (List.takeWhile_append_dropWhile (p := p) (l := l))
  simp only [List.length_append] at h
  omega

theorem rlw_explicit (s : String) (c : Nat) (l0 l1 : List Char)
    (rest : List (List Char)) (e : splitOnNlList s.data = l0 :: l1 :: rest) :
    remove_leading_whitespace s (some c) =
      String.mk (joinNlList (l0 :: (l1 :: rest).map (fun l => l.drop c))) := by
  simp only [remove_leading_whitespace, e, Option.getD]

/-- C6: the leading-whitespace normalizer leaves one-line texts unchanged,
infers a missing count from the second line's leading spaces only, removes
exactly that many characters from the start of every line after the first
(truncating into non-space characters where lines are shorter), and with an
explicit count of 0 is a no-op on multi-line text. -/
theorem remove_leading_whitespace_spec :
    (∀ (s : String) (count : Option Nat),
        (splitOnNlList s.data).length ≤ 1 → remove_leading_whitespace s count = s) ∧
      (∀ (s : String) (l0 l1 : List Char) (rest : List (List Char)),
        splitOnNlList s.data = l0 :: l1 :: rest →
        remove_leading_whitespace s none =
          remove_leading_whitespace s
            (some (l1.takeWhile (fun ch => ch = ' ')).length)) ∧
      (∀ (s : String) (c : Nat) (l0 l1 : List Char) (rest : List (List Char)),
        splitOnNlList s.data = l0 :: l1 :: rest →
        remove_leading_whitespace s (some c) =
          String.mk (joinNlList (l0 :: (l1 :: rest).map (fun l => l.drop c)))) ∧
      (∀ (s : String) (l0 l1 : List Char) (rest : List (List Char)),
        splitOnNlList s.data = l0 :: l1 :: rest →
        remove_leading_whitespace s (some 0) = s) := by
  refine ⟨?_, ?_, ?_, ?_⟩
  · intro s count h
    rcases e : splitOnNlList s.data with _ | ⟨l0, _ | ⟨l1, rest⟩⟩
    · simp [remove_leading_whitespace, e]
    · simp [remove_leading_whitespace, e]
    · rw [e] at h; simp at h
  · intro s l0 l1 rest e
    rw [rlw_explicit s _ l0 l1 rest e]
    simp only [remove_leading_whitespace, e, Option.getD,
      length_sub_dropWhile]
  · exact rlw_explicit
  · intro s l0 l1 rest e
    rw [rlw_explicit s 0 l0 l1 rest e]
    simp only [List.drop_zero, List.map_id']
    rw [← e, joinNl_splitOnNl]

/-- C6 witness: a one-line text is unchanged; on `"a\n  b\n    c"` the
inferred count is the two leading spaces of the second line; an explicit
count of 3 truncates the short line `"Xc"` to `""`; an explicit count of 0
changes nothing. -/
theorem remove_leading_whitespace_spec_witness :
    remove_leading_whitespace "abc" (some 5) = "abc" ∧
      remove_leading_whitespace "a\n  b\n    c" none =
        remove_leading_whitespace "a\n  b\n    c" (some 2) ∧
      remove_leading_whitespace "a\n  b\nXc" (some 3) =
        String.mk (joinNlList ["a".data,
          ("  b".data.drop 3), ("Xc".data.drop 3)]) ∧
      remove_leading_whitespace "a\n b" (some 0) = "a\n b" := by
  refine ⟨?_, ?_, ?_, ?_⟩
  · exact remove_leading_whitespace_spec.1 "abc" (some 5) (by decide)
  · have h := remove_leading_whitespace_spec.2.1 "a\n  b\n    c"
      "a".data "  b".data ["    c".data] (by decide)
    simpa using h
  · have h := remove_leading_whitespace_spec.2.2.1 "a\n  b\nXc" 3
      "a".data "  b".data ["Xc".data] (by decide)
    simpa using h
  · exact remove_leading_whitespace_spec.2.2.2 "a\n b"
      "a".data " b".data [] (by decide)

/-! ### Decimal representations round-trip through the Python parser -/

theorem digitChar_props (n : Nat) (h : n < 10) :
    (Char.ofNat (48 + n)).toNat = 48 + n ∧
      isDigitChar (Char.ofNat (48 + n)) = true ∧
      Char.toLower (Char.ofNat (48 + n)) = Char.ofNat (48 + n) := by
  interval_cases n <;> exact ⟨rfl, rfl, rfl⟩

theorem digitsVal_append (l : List Char) (c : Char) :
    digitsVal (l ++ [c]) = digitsVal l * 10 + (c.toNat - 48) := by
  simp [digitsVal, List.foldl_append]

theorem natDigits_spec (fuel : Nat) : ∀ n, n < fuel →
    natDigits fuel n ≠ [] ∧ (∀ c ∈ natDigits fuel n, isDigitChar c = true) ∧
      digitsVal (natDigits fuel n) = n := by
  induction fuel with
  | zero => intro n h; omega
  | succ f ih =>
    intro n h
    by_cases h10 : n < 10
    · simp only [natDigits, h10, if_true]
      refine ⟨by simp, ?_, ?_⟩
      · intro c hc
        simp only [List.mem_singleton] at hc
        subst hc
        exact (digitChar_props n h10).2.1
      · simp [digitsVal, (digitChar_props n h10).1]
    · have hdiv : n / 10 < n := Nat.div_lt_self (by omega) (by omega)
      obtain ⟨hne, hdig, hval⟩ := ih (n / 10) (by omega)
      simp only [natDigits, h10, if_false]
      have hm : n % 10 < 10 := Nat.mod_lt _ (by omega)
      refine ⟨by simp, ?_, ?_⟩
      · intro c hc
        rcases List.mem_append.1 hc with h1 | h2
        · exact hdig c h1
        · simp only [List.mem_singleton] at h2
          subst h2
          exact (digitChar_props (n % 10) hm).2.1
      · rw [digitsVal_append, hval, (digitChar_props (n % 10) hm).1]
        omega

theorem dropWhile_eq_self_of_none (p : Char → Bool) (l : List Char)
    (h : ∀ c ∈ l, p c = false) : l.dropWhile p = l := by
  cases l with
  | nil => rfl
  | cons c cs => simp [List.dropWhile, h c (List.mem_cons_self c cs)]

theorem pyStripList_eq_self (l : List Char)
    (h : ∀ c ∈ l, pyIsSpace c = false) : pyStripList l = l := by
  unfold pyStripList
  rw [dropWhile_eq_self_of_none _ _ h,
    dropWhile_eq_self_of_none _ _ (fun c hc => h c (List.mem_reverse.1 hc)),
    List.reverse_reverse]

theorem digit_not_space (c : Char) (h : isDigitChar c = true) :
    pyIsSpace c = false := by
  simp only [isDigitChar, Bool.and_eq_true, decide_eq_true_eq] at h
  simp only [pyIsSpace, Bool.or_eq_false_iff, decide_eq_false_iff_not]
  refine ⟨⟨⟨⟨⟨?_, ?_⟩, ?_⟩, ?_⟩, ?_⟩, ?_⟩ <;>
    · rintro rfl
      exact absurd h (by decide)

theorem digit_no_sign (c : Char) (h : isDigitChar c = true) :
    c ≠ '+' ∧ c ≠ '-' ∧ c ≠ '.' := by
  simp only [isDigitChar, Bool.and_eq_true, decide_eq_true_eq] at h
  refine ⟨?_, ?_, ?_⟩ <;>
    · rintro rfl
      exact absurd h (by decide)

theorem parseDigits_of_digits (ds : List Char) (hne : ds ≠ [])
    (hdig : ∀ c ∈ ds, isDigitChar c = true) :
    parseDigits ds = some (digitsVal ds) := by
  have hall : ds.all isDigitChar = true := List.all_eq_true.2 hdig
  simp [parseDigits, hne, hall]

theorem parsePyInt_decimal (k : Nat) :
    parsePyInt (natDigits (k + 1) k) = some (k : Int) := by
  obtain ⟨hne, hdig, hval⟩ := natDigits_spec (k + 1) k (by omega)
  unfold parsePyInt
  rw [pyStripList_eq_self _ (fun c hc => digit_not_space c (hdig c hc))]
  rcases e : natDigits (k + 1) k with _ | ⟨c, cs⟩
  · exact absurd e hne
  · have hc : isDigitChar c = true := hdig c (by rw [e]; exact List.mem_cons_self c cs)
    obtain ⟨h1, h2, _⟩ := digit_no_sign c hc
    simp only [h1, h2, if_false]
    rw [← e, parseDigits_of_digits _ hne hdig, hval]
    rfl

theorem decimalStr_inj (a b : Nat)
    (h : natDigits (a + 1) a = natDigits (b + 1) b) : a = b := by
  have ha := parsePyInt_decimal a
  rw [h, parsePyInt_decimal b] at ha
  simpa using ha.symm

/-! ### List access and sorting lemmas -/

theorem getD_set_self (l : List Nat) (i v : Nat) (h : i < l.length) :
    (l.set i v).getD i 0 = v := by
  induction l generalizing i with
  | nil => simp at h
  | cons x xs ih =>
    cases i with
    | zero => rfl
    | succ n =>
      simp only [List.set, List.getD_cons_succ]
      exact ih n (by simpa using h)

theorem getD_set_other (l : List Nat) (i j v : Nat) (h : i ≠ j) :
    (l.set i v).getD j 0 = l.getD j 0 := by
  induction l generalizing i j with
  | nil => rfl
  | cons x xs ih =>
    cases i with
    | zero =>
      cases j with
      | zero => exact absurd rfl h
      | succ n => rfl
    | succ n =>
      cases j with
      | zero => rfl
      | succ n2 =>
        simp only [List.set, List.getD_cons_succ]
        exact ih n n2 (by omega)

theorem getD_replicate (n i : Nat) :
    (List.replicate n (0 : Nat)).getD i 0 = 0 := by
  induction n generalizing i with
  | zero => rfl
  | succ n2 ih =>
    cases i with
    | zero => rfl
    | succ j => simp [List.replicate, List.getD_cons_succ, ih j]

theorem mem_insertLe {α : Type} (le : α → α → Bool) (x a : α) (l : List α) :
    a ∈ insertLe le x l ↔ a = x ∨ a ∈ l := by
  induction l with
  | nil => simp [insertLe]
  | cons y ys ih =>
    by_cases h : le x y <;> simp [insertLe, h, ih] <;> tauto

theorem mem_sortByLe {α : Type} (le : α → α → Bool) (a : α) (l : List α) :
    a ∈ sortByLe le l ↔ a ∈ l := by
  induction l with
  | nil => simp [sortByLe]
  | cons x xs ih => simp [sortByLe, mem_insertLe, ih]

/-! ### The attempt-flag loop -/

theorem attempt_step_length (acc : List Nat) (e : String) :
    (attempt_step acc e).length = acc.length := by
  by_cases h1 : (".txt".data).isSuffixOf (e.data.map Char.toLower)
  · simp only [attempt_step, h1, if_true]
    rcases e2 : parsePyInt (splitextStem e.data) with _ | n
    · rfl
    · by_cases h3 : (1 ≤ n && n ≤ (MAX_ATTEMPTS : Int)) = true <;>
        simp [h3, List.length_set]
  · simp [attempt_step, h1]

theorem attempt_step_values (acc : List Nat) (e : String)
    (h : ∀ x ∈ acc, x = 0 ∨ x = 1) :
    ∀ x ∈ attempt_step acc e, x = 0 ∨ x = 1 := by
  intro x hx
  by_cases h1 : (".txt".data).isSuffixOf (e.data.map Char.toLower)
  · simp only [attempt_step, h1, if_true] at hx
    rcases e2 : parsePyInt (splitextStem e.data) with _ | n <;> rw [e2] at hx
    · exact h x hx
    · have hx2 : x ∈ (if (1 ≤ n && n ≤ (MAX_ATTEMPTS : Int)) = true then
          acc.set (n - 1).toNat 1 else acc) := hx
      by_cases h3 : (1 ≤ n && n ≤ (MAX_ATTEMPTS : Int)) = true
      · rw [if_pos h3] at hx2
        rcases List.mem_or_eq_of_mem_set hx2 with h4 | h4
        · exact h x h4
        · exact Or.inr h4
      · rw [if_neg h3] at hx2
        exact h x hx2
  · simp only [attempt_step, h1, if_false] at hx
    exact h x hx

theorem map_eq_self_of {α : Type} (f : α → α) (l : List α)
    (h : ∀ c ∈ l, f c = c) : l.map f = l := by
  induction l with
  | nil => rfl
  | cons c cs ih =>
    simp only [List.map_cons, h c (List.mem_cons_self c cs)]
    rw [ih (fun c hc => h c (List.mem_cons_of_mem _ hc))]

theorem natDigits_chars (fuel : Nat) : ∀ n, n < fuel →
    ∀ c ∈ natDigits fuel n, ∃ d, d < 10 ∧ c = Char.ofNat (48 + d) := by
  induction fuel with
  | zero => intro n h; omega
  | succ f ih =>
    intro n h c hc
    by_cases h10 : n < 10
    · simp only [natDigits, h10, if_true, List.mem_singleton] at hc
      exact ⟨n, h10, hc⟩
    · have hdiv : n / 10 < n := Nat.div_lt_self (by omega) (by omega)
      simp only [natDigits, h10, if_false, List.mem_append,
        List.mem_singleton] at hc
      rcases hc with h1 | h2
      · exact ih (n / 10) (by omega) c h1
      · exact ⟨n % 10, Nat.mod_lt _ (by omega), h2⟩

theorem lower_canonical (k : Nat) :
    (natDigits (k + 1) k ++ ".txt".data).map Char.toLower =
      natDigits (k + 1) k ++ ".txt".data := by
  rw [List.map_append,
    map_eq_self_of _ _ (fun c hc => by
      obtain ⟨d, hd, rfl⟩ := natDigits_chars (k + 1) k (by omega) c hc
      exact (digitChar_props d hd).2.2),
    show List.map Char.toLower ".txt".data = ".txt".data from by decide]

theorem splitextStem_canonical (k : Nat) :
    splitextStem (natDigits (k + 1) k ++ ".txt".data) = natDigits (k + 1) k := by
  obtain ⟨hne, hdig, _⟩ := natDigits_spec (k + 1) k (by omega)
  rcases e : natDigits (k + 1) k with _ | ⟨c0, cs⟩
  · exact absurd e hne
  · have hc0 : isDigitChar c0 = true := by
      rw [e] at hdig
      exact hdig c0 (List.mem_cons_self _ _)
    have hdot : c0 ≠ '.' := (digit_no_sign c0 hc0).2.2
    have hany : ((c0 :: cs).reverse.any fun c => decide (¬c = '.')) = true :=
      List.any_eq_true.2 ⟨c0, List.mem_reverse.2 (List.mem_cons_self _ _), by
        simp [hdot]⟩
    unfold splitextStem
    rw [List.reverse_append]
    show (if ((c0 :: cs).reverse.any fun c => decide (¬c = '.')) = true
        then (c0 :: cs).reverse.reverse else (c0 :: cs) ++ ".txt".data) = c0 :: cs
    rw [if_pos hany, List.reverse_reverse]

theorem attempt_step_canonical (acc : List Nat) (hlen : acc.length = 24)
    (k N : Nat) (h1 : 1 ≤ N) (h2 : N ≤ 24) :
    ((attempt_step acc (decimalStr k ++ ".txt")).getD (N - 1) 0 = 1 ↔
      (acc.getD (N - 1) 0 = 1 ∨ N = k)) := by
  have hdata : (decimalStr k ++ ".txt").data = natDigits (k + 1) k ++ ".txt".data :=
    String.data_append _ _
  have hsuf : (".txt".data).isSuffixOf
      ((decimalStr k ++ ".txt").data.map Char.toLower) = true := by
    rw [hdata, lower_canonical]
    simp
  have hstem : splitextStem (decimalStr k ++ ".txt").data = natDigits (k + 1) k := by
    rw [hdata]
    exact splitextStem_canonical k
  have hred : attempt_step acc (decimalStr k ++ ".txt") =
      if (1 ≤ (k : Int) && (k : Int) ≤ (MAX_ATTEMPTS : Int)) = true
        then acc.set ((k : Int) - 1).toNat 1 else acc := by
    unfold attempt_step
    rw [if_pos hsuf, hstem, parsePyInt_decimal k]
  rw [hred]
  by_cases hk : (1 ≤ (k : Int) && (k : Int) ≤ (MAX_ATTEMPTS : Int)) = true
  · rw [if_pos hk]
    simp only [Bool.and_eq_true, decide_eq_true_eq, MAX_ATTEMPTS] at hk
    have hk1 : 1 ≤ k ∧ k ≤ 24 := by omega
    have hkn : ((k : Int) - 1).toNat = k - 1 := by omega
    rw [hkn]
    by_cases hNk : N = k
    · subst hNk
      rw [getD_set_self _ _ _ (by omega)]
      simp
    · rw [getD_set_other _ _ _ _ (by omega)]
      simp [hNk]
  · rw [if_neg hk]
    have hNk : N ≠ k := by
      intro hEq
      subst hEq
      apply hk
      simp only [Bool.and_eq_true, decide_eq_true_eq, MAX_ATTEMPTS]
      omega
    simp [hNk]

theorem attempt_fold_spec (names : List String) :
    ∀ acc : List Nat, acc.length = 24 →
      (∀ n ∈ names, ∃ k : Nat, n = decimalStr k ++ ".txt") →
      ∀ N : Nat, 1 ≤ N → N ≤ 24 →
        ((names.foldl attempt_step acc).getD (N - 1) 0 = 1 ↔
          (acc.getD (N - 1) 0 = 1 ∨ (decimalStr N ++ ".txt") ∈ names)) := by
  induction names with
  | nil => intro acc _ _ N _ _; simp
  | cons e es ih =>
    intro acc hlen hcanon N h1 h2
    obtain ⟨k, hk⟩ := hcanon e (List.mem_cons_self e es)
    subst hk
    rw [List.foldl_cons,
      ih _ (by rw [attempt_step_length]; exact hlen)
        (fun n hn => hcanon n (List.mem_cons_of_mem _ hn)) N h1 h2,
      attempt_step_canonical acc hlen k N h1 h2]
    have heq : (decimalStr N ++ ".txt" = decimalStr k ++ ".txt") ↔ N = k := by
      constructor
      · intro h
        have hd := congrArg String.data h
        rw [String.data_append, String.data_append] at hd
        exact decimalStr_inj N k (List.append_cancel_right hd)
      · intro h
        rw [h]
    simp only [List.mem_cons, heq]
    tauto

theorem foldl_attempt_length (names : List String) :
    ∀ acc : List Nat, (names.foldl attempt_step acc).length = acc.length := by
  induction names with
  | nil => intro acc; rfl
  | cons e es ih =>
    intro acc
    rw [List.foldl_cons, ih, attempt_step_length]

theorem foldl_attempt_values (names : List String) :
    ∀ acc : List Nat, (∀ x ∈ acc, x = 0 ∨ x = 1) →
      ∀ x ∈ names.foldl attempt_step acc, x = 0 ∨ x = 1 := by
  induction names with
  | nil => intro acc h; exact h
  | cons e es ih =>
    intro acc h
    rw [List.foldl_cons]
    exact ih _ (attempt_step_values acc e h)

/-- C9: on a well-formed tree `root/<problem-index>/<model-name>/<k>.txt`,
the aggregation produces for every problem directory and model directory a
sequence of exactly 24 flags, each 0 or 1, where flag `N` (for `N` in
`[1, 24]`) is 1 exactly when file `N.txt` is in that model's listing. -/
theorem build_outcomes_spec (root : List FsEntry) (hwf : wfTree root) :
    ∀ p ∈ root, ∀ m ∈ p.children,
      ∃ models flags,
        (p.name, models) ∈ build_outcomes root ∧
        (m.name, flags) ∈ models ∧
        flags.length = 24 ∧
        (∀ x ∈ flags, x = 0 ∨ x = 1) ∧
        (∀ N : Nat, 1 ≤ N → N ≤ 24 →
          (flags.getD (N - 1) 0 = 1 ↔
            (decimalStr N ++ ".txt") ∈ m.children.map FsEntry.name)) := by
  intro p hp m hm
  obtain ⟨hpdir, hpdig, hmod⟩ := hwf p hp
  obtain ⟨hmdir, hfiles⟩ := hmod m hm
  refine ⟨(sortByLe (fun a b => lexLe a.name.data b.name.data) p.children).filterMap
      (fun m2 => if m2.isDir then
        some (m2.name, attempt_flags (m2.children.map FsEntry.name)) else none),
    attempt_flags (m.children.map FsEntry.name), ?_, ?_, ?_, ?_, ?_⟩
  · exact List.mem_map_of_mem _
      ((mem_sortByLe intKeyLe p _).2
        (List.mem_filter.2 ⟨hp, by rw [hpdir, hpdig]; rfl⟩))
  · exact List.mem_filterMap.2
      ⟨m, (mem_sortByLe _ m _).2 hm, by rw [if_pos hmdir]⟩
  · exact foldl_attempt_length _ _
  · exact foldl_attempt_values _ _ (fun x hx => Or.inl (List.eq_of_mem_replicate hx))
  · intro N h1 h2
    have hcanon : ∀ n ∈ m.children.map FsEntry.name,
        ∃ k : Nat, n = decimalStr k ++ ".txt" := by
      intro n hn
      obtain ⟨f, hf, rfl⟩ := List.mem_map.1 hn
      obtain ⟨k, hk⟩ := hfiles f hf
      exact ⟨k, by rw [hk]; rfl⟩
    have h := attempt_fold_spec (m.children.map FsEntry.name)
      (List.replicate MAX_ATTEMPTS 0) (by simp [MAX_ATTEMPTS]) hcanon N h1 h2
    rw [getD_replicate] at h
    simpa using h

/-- C9 witness: a one-problem, one-model tree with attempt files `1.txt` and
`3.txt` satisfies the aggregation contract. -/
theorem build_outcomes_spec_witness :
    ∃ models flags,
      ("0", models) ∈ build_outcomes
          [.dir "0" [.dir "modelA" [.file "1.txt", .file "3.txt"]]] ∧
        ("modelA", flags) ∈ models ∧
        flags.length = 24 ∧
        (∀ x ∈ flags, x = 0 ∨ x = 1) ∧
        (∀ N : Nat, 1 ≤ N → N ≤ 24 →
          (flags.getD (N - 1) 0 = 1 ↔
            (decimalStr N ++ ".txt") ∈
              ([FsEntry.file "1.txt", FsEntry.file "3.txt"].map FsEntry.name))) := by
  refine build_outcomes_spec
    [.dir "0" [.dir "modelA" [.file "1.txt", .file "3.txt"]]] ?_
    (.dir "0" [.dir "modelA" [.file "1.txt", .file "3.txt"]])
    (List.mem_singleton.2 rfl)
    (.dir "modelA" [.file "1.txt", .file "3.txt"])
    (List.mem_singleton.2 rfl)
  intro p hp
  rw [List.mem_singleton] at hp
  subst hp
  refine ⟨rfl, by decide, ?_⟩
  intro m hm
  simp only [FsEntry.children, List.mem_singleton] at hm
  subst hm
  refine ⟨rfl, ?_⟩
  intro f hf
  simp only [FsEntry.children] at hf
  rcases List.mem_cons.1 hf with h | h
  · exact ⟨1, h.trans (congrArg FsEntry.file (by decide))⟩
  · rw [List.mem_singleton] at h
    exact ⟨3, h.trans (congrArg FsEntry.file (by decide))⟩
